import Mathlib

/-
Shallow embedding of src/fdtd_toroidal.py: a 1-D FDTD leapfrog simulation
on a periodic ring with a rotating sinusoidal permittivity perturbation,
an arrival detector, a rotation-rate sweep, and CSV row computation.

Numbers are modelled by an arbitrary linear ordered field `α` (rationals
in concrete witnesses).  The transcendental primitives `np.sin`, `np.exp`
and the constant `np.pi` are parameters (`sF`, `eF`, `piC`): every theorem
below holds for every choice of them, in particular for the real ones.
Python's float NaN (the undetected sentinel) is modelled by `Option α`
with `none` for NaN.
-/

namespace Fdtd

variable {α : Type} [LinearOrderedField α]

/-- The simulation parameters, mirroring the module-level values read from
parameters.json at the top of fdtd_toroidal.py (N, dx, dt, delta_n,
pulse_position, pulse_sigma, injection_duration, detection_threshold,
circulations, simulation_steps, averaging_runs, omega_values). -/
structure Params (α : Type) where
  N : Nat
  dx : α
  dt : α
  delta_n : α
  pulse_pos : Nat
  pulse_sigma : α
  inj_dur : Nat
  detect_thr : α
  circulations : Nat
  sim_steps : Nat
  avg_runs : Nat
  omega_vals : List α

/-- `n_base = 1.0`, the baseline refractive index (module constant). -/
def n_base : α := 1

/-- `eps0 = n_base ** 2` (module constant). -/
def eps0 : α := n_base ^ 2

/-- `phase = 2 * np.pi * (np.arange(N) + Omega * t) / N`, at index `k`. -/
def phase (p : Params α) (piC Omega : α) (t k : Nat) : α :=
  2 * piC * ((k : α) + Omega * (t : α)) / (p.N : α)

/-- The permittivity array computed inside `fdtd_step`:
`eps = eps0 * (1 + delta_n * np.sin(phase))`, at index `k`. -/
def epsArr (p : Params α) (sF : α → α) (piC Omega : α) (t k : Nat) : α :=
  eps0 * (1 + p.delta_n * sF (phase p piC Omega t k))

/-- One Yee FDTD step, `fdtd_step(E, H, Omega, t)`.  Fields are functions
from cell index to value (only indices below `p.N` are meaningful).
`H[1:]` and `H[0]` are updated first from the previous `E`, then `E[:-1]`
and `E[-1]` from the freshly updated `H`; the function returns `(E, H)`. -/
def fdtd_step (p : Params α) (sF : α → α) (piC : α) (E H : Nat → α)
    (Omega : α) (t : Nat) : (Nat → α) × (Nat → α) :=
  let eps := epsArr p sF piC Omega t
  let Hn : Nat → α := fun i =>
    if i = 0 then H 0 + (p.dt / (eps (p.N - 1) * p.dx)) * (E 0 - E (p.N - 1))
    else H i + (p.dt / (eps (i - 1) * p.dx)) * (E i - E (i - 1))
  let En : Nat → α := fun i =>
    if i = p.N - 1 then
      E (p.N - 1) + (p.dt / (eps (p.N - 1) * p.dx)) * (Hn (p.N - 1) - Hn 0)
    else E i + (p.dt / (eps i * p.dx)) * (Hn i - Hn (i + 1))
  (En, Hn)

/-- Pointwise update of a field at one index. -/
def updE (E : Nat → α) (i : Nat) (v : α) : Nat → α :=
  fun j => if j = i then v else E j

/-- The seeding Gaussian pulse
`np.exp(-0.5 * ((np.arange(N) - pulse_pos) / pulse_sigma) ** 2)`. -/
def gaussian_pulse (p : Params α) (eF : α → α) : Nat → α :=
  fun k => eF (-(1 / 2) * (((k : α) - (p.pulse_pos : α)) / p.pulse_sigma) ^ 2)

/-- The source expression added while the source is on:
`np.exp(-0.5 * ((t - inj_dur/2) / (inj_dur/4)) ** 2)`. -/
def source_term (p : Params α) (eF : α → α) (t : Nat) : α :=
  eF (-(1 / 2) * (((t : α) - (p.inj_dur : α) / 2) / ((p.inj_dur : α) / 4)) ^ 2)

/-- The guarded injection `if t < source_on_until: E[pulse_pos] += ...`. -/
def injectE (p : Params α) (eF : α → α) (E : Nat → α) (t : Nat) : Nat → α :=
  if t < p.inj_dur then
    updE E p.pulse_pos (E p.pulse_pos + source_term p eF t)
  else E

/-- The per-trial loop state of `run_one_omega`: the two fields, the lap
counter `laps_completed` and `arrival_step` (which also encodes the
`break`: once it is `some`, the loop body no longer runs). -/
structure TState (α : Type) where
  E : Nat → α
  H : Nat → α
  laps : Nat
  arrival : Option Nat

/-- The pair `E, H = fdtd_step(E, H, Omega, t)` computed by the loop body,
after the guarded source injection. -/
def stepFields (p : Params α) (sF eF : α → α) (piC Omega : α) (t : Nat)
    (s : TState α) : (Nat → α) × (Nat → α) :=
  fdtd_step p sF piC (injectE p eF s.E t) s.H Omega t

/-- One iteration of the loop body of `run_one_omega` at step `t`:
inject the source if `t < inj_dur`, take one `fdtd_step`, then detect
(`E[pulse_pos] > detect_thr and arrival_step is None`), incrementing
`laps_completed` and recording `arrival_step = t` (with `break`, modelled
by freezing the state) once `laps_completed >= target_laps`. -/
def trial_step (p : Params α) (sF eF : α → α) (piC Omega : α) (t : Nat)
    (s : TState α) : TState α :=
  if s.arrival.isSome then s
  else if (stepFields p sF eF piC Omega t s).1 p.pulse_pos > p.detect_thr then
    if p.circulations ≤ s.laps + 1 then
      ⟨(stepFields p sF eF piC Omega t s).1, (stepFields p sF eF piC Omega t s).2,
        s.laps + 1, some t⟩
    else
      ⟨(stepFields p sF eF piC Omega t s).1, (stepFields p sF eF piC Omega t s).2,
        s.laps + 1, none⟩
  else
    ⟨(stepFields p sF eF piC Omega t s).1, (stepFields p sF eF piC Omega t s).2,
      s.laps, none⟩

/-- The loop state of `run_one_omega` before step `n`: the fields start as
`E = pulse.copy()`, `H = np.zeros(N)`, with `laps_completed = 0` and
`arrival_step = None`; then `n` iterations of the loop body. -/
def trialRun (p : Params α) (sF eF : α → α) (piC Omega : α) : Nat → TState α
  | 0 => ⟨gaussian_pulse p eF, fun _ => 0, 0, none⟩
  | n + 1 => trial_step p sF eF piC Omega n (trialRun p sF eF piC Omega n)

/-- `run_one_omega(Omega)`: run `sim_steps` loop iterations and return
`arrival_step * dt`, or NaN (`none`) when `arrival_step` was never set. -/
def run_one_omega (p : Params α) (sF eF : α → α) (piC Omega : α) : Option α :=
  match (trialRun p sF eF piC Omega p.sim_steps).arrival with
  | some s => some ((s : α) * p.dt)
  | none => none

/-- `np.mean` of a list: sum divided by length. -/
def np_mean (l : List α) : α := l.sum / (l.length : α)

/-- The `times` list one rotation rate accumulates inside
`compute_timing_table`: `avg_runs` trials, NaN results dropped. -/
def detectedTimes (p : Params α) (sF eF : α → α) (piC omega : α) : List α :=
  (List.range p.avg_runs).filterMap (fun _ => run_one_omega p sF eF piC omega)

/-- `compute_timing_table()`: for each omega in `omega_vals`, in order,
append `(omega, np.mean(times))` when `times` is nonempty and
`(omega, NaN)` otherwise. -/
def compute_timing_table (p : Params α) (sF eF : α → α) (piC : α) :
    List (α × Option α) :=
  p.omega_vals.map (fun omega =>
    let times := detectedTimes p sF eF piC omega
    if times.isEmpty then (omega, none) else (omega, some (np_mean times)))

/-- Float subtraction with NaN propagation. -/
def nanSub : Option α → Option α → Option α
  | some a, some b => some (a - b)
  | _, _ => none

/-- Float multiplication with NaN propagation. -/
def nanMul : Option α → Option α → Option α
  | some a, some b => some (a * b)
  | _, _ => none

/-- Float division with NaN propagation (only applied under the
`t0 != 0` guard in `write_csv`). -/
def nanDiv : Option α → Option α → Option α
  | some a, some b => some (a / b)
  | _, _ => none

/-- Python's `t0 != 0` on a float that may be NaN: NaN compares unequal
to zero, so the test is true for the NaN sentinel. -/
def nanNeZero : Option α → Bool
  | some a => decide (a ≠ 0)
  | none => true

/-- The data rows computed by `write_csv(data)`: with `t0 = data[0][1]`,
each row carries `delta = t - t0` and
`frac = 100 * delta / t0 if t0 != 0 else 0.0`.  An empty `data` list
produces no rows (the `if data:` guard). -/
def write_csv_rows (data : List (α × Option α)) :
    List (α × Option α × Option α × Option α) :=
  match data with
  | [] => []
  | (_, t0) :: _ =>
    data.map (fun r =>
      let delta := nanSub r.2 t0
      let frac := if nanNeZero t0 then nanDiv (nanMul (some 100) delta) t0
        else some 0
      (r.1, r.2, delta, frac))

/-- The header row `write_csv` always writes. -/
def write_csv_header : List String :=
  [ "Omega (1/step)", "Arrival Time (dt units)",
    "Delta t vs. Omega=0", "Delta t Fraction (%)" ]

/-- The whole file `write_csv(data)` writes: the header row, then the
data rows. -/
def write_csv_file (data : List (α × Option α)) :
    List String × List (α × Option α × Option α × Option α) :=
  (write_csv_header, write_csv_rows data)

/-- `record_every = 2` inside `make_animation`. -/
def record_every : Nat := 2

/-- The loop state of `make_animation`: fields plus the recorded frames. -/
structure AState (α : Type) where
  E : Nat → α
  H : Nat → α
  frames : List (Nat → α)

/-- One iteration of the `make_animation` loop at step `t`: inject while
`t < inj_dur`, take one `fdtd_step`, and record a frame (a copy of `E`)
when `t % record_every == 0`. -/
def anim_step (p : Params α) (sF eF : α → α) (piC Omega : α) (t : Nat)
    (s : AState α) : AState α :=
  let EH := fdtd_step p sF piC (injectE p eF s.E t) s.H Omega t
  ⟨EH.1, EH.2, if t % record_every = 0 then s.frames ++ [ EH.1 ] else s.frames⟩

/-- The `make_animation` loop state before step `n`. -/
def animRun (p : Params α) (sF eF : α → α) (piC Omega : α) : Nat → AState α
  | 0 => ⟨gaussian_pulse p eF, fun _ => 0, []⟩
  | n + 1 => anim_step p sF eF piC Omega n (animRun p sF eF piC Omega n)

/-- The frame list `make_animation(Omega)` renders. -/
def make_animation_frames (p : Params α) (sF eF : α → α) (piC Omega : α) :
    List (Nat → α) :=
  (animRun p sF eF piC Omega p.sim_steps).frames

/-! Helper lemmas unfolding one FDTD step pointwise. -/

theorem fdtd_step_H (p : Params α) (sF : α → α) (piC : α) (E H : Nat → α)
    (Omega : α) (t i : Nat) :
    (fdtd_step p sF piC E H Omega t).2 i =
      if i = 0 then
        H 0 + (p.dt / (epsArr p sF piC Omega t (p.N - 1) * p.dx)) *
          (E 0 - E (p.N - 1))
      else
        H i + (p.dt / (epsArr p sF piC Omega t (i - 1) * p.dx)) *
          (E i - E (i - 1)) := rfl

theorem fdtd_step_E (p : Params α) (sF : α → α) (piC : α) (E H : Nat → α)
    (Omega : α) (t i : Nat) :
    (fdtd_step p sF piC E H Omega t).1 i =
      if i = p.N - 1 then
        E (p.N - 1) + (p.dt / (epsArr p sF piC Omega t (p.N - 1) * p.dx)) *
          ((fdtd_step p sF piC E H Omega t).2 (p.N - 1) -
            (fdtd_step p sF piC E H Omega t).2 0)
      else
        E i + (p.dt / (epsArr p sF piC Omega t i * p.dx)) *
          ((fdtd_step p sF piC E H Omega t).2 i -
            (fdtd_step p sF piC E H Omega t).2 (i + 1)) := rfl

/-- Concrete instantiation of the modelled `np.sin` used in witnesses. -/
def sq0 : ℚ → ℚ := fun _ => 0

/-- Concrete instantiation of the modelled `np.exp` used in witnesses. -/
def eq1 : ℚ → ℚ := fun _ => 1

/-- A small concrete parameter record used by witnesses. -/
def pW : Params ℚ :=
  ⟨3, 1, 1, 0, 0, 1, 0, 0, 1, 2, 1, [ 0 ]⟩

/-- Concrete initial E field used by the C1 witness. -/
def EW : Nat → ℚ := fun k => (k : ℚ)

/-- Concrete initial H field used by the C1 witness. -/
def HW : Nat → ℚ := fun _ => 0

/-- C1: one call to `fdtd_step` performs one leapfrog step in the order
H-before-E: every interior `H[i]` (`1 ≤ i < N`) is incremented by
`(dt / (eps[i-1] * dx)) * (E[i] - E[i-1])` and the wrap cell `H[0]` by
`(dt / (eps[N-1] * dx)) * (E[0] - E[N-1])`, both from the previous `E`;
then every `E[i]` (`i < N-1`) is incremented by
`(dt / (eps[i] * dx)) * (H[i] - H[i+1])` and the wrap cell `E[N-1]` by
`(dt / (eps[N-1] * dx)) * (H[N-1] - H[0])`, from the already-updated `H`
(the `.2` projection of the step result). -/
theorem C1_leapfrog_step (p : Params α) (sF : α → α) (piC : α)
    (E H : Nat → α) (Omega : α) (t : Nat) :
    (∀ i, 1 ≤ i → i < p.N →
      (fdtd_step p sF piC E H Omega t).2 i =
        H i + (p.dt / (epsArr p sF piC Omega t (i - 1) * p.dx)) *
          (E i - E (i - 1))) ∧
    ((fdtd_step p sF piC E H Omega t).2 0 =
      H 0 + (p.dt / (epsArr p sF piC Omega t (p.N - 1) * p.dx)) *
        (E 0 - E (p.N - 1))) ∧
    (∀ i, i < p.N - 1 →
      (fdtd_step p sF piC E H Omega t).1 i =
        E i + (p.dt / (epsArr p sF piC Omega t i * p.dx)) *
          ((fdtd_step p sF piC E H Omega t).2 i -
            (fdtd_step p sF piC E H Omega t).2 (i + 1))) ∧
    ((fdtd_step p sF piC E H Omega t).1 (p.N - 1) =
      E (p.N - 1) + (p.dt / (epsArr p sF piC Omega t (p.N - 1) * p.dx)) *
        ((fdtd_step p sF piC E H Omega t).2 (p.N - 1) -
          (fdtd_step p sF piC E H Omega t).2 0)) := by
  refine ⟨fun i h1 h2 => ?_, ?_, fun i h => ?_, ?_⟩
  · rw [fdtd_step_H, if_neg (by omega)]
  · rw [fdtd_step_H, if_pos rfl]
  · rw [fdtd_step_E, if_neg (by omega)]
  · rw [fdtd_step_E, if_pos rfl]

/-- Witness for C1 at a concrete 3-cell configuration, interior index 1
for the H-update and cell 0 for the E-update. -/
theorem C1_leapfrog_step_witness :
    (1 ≤ 1 ∧ 1 < pW.N ∧ 0 < pW.N - 1) ∧
    (fdtd_step pW sq0 0 EW HW 0 0).2 1 =
      HW 1 + (pW.dt / (epsArr pW sq0 0 0 0 0 * pW.dx)) * (EW 1 - EW 0) ∧
    (fdtd_step pW sq0 0 EW HW 0 0).1 0 =
      EW 0 + (pW.dt / (epsArr pW sq0 0 0 0 0 * pW.dx)) *
        ((fdtd_step pW sq0 0 EW HW 0 0).2 0 -
          (fdtd_step pW sq0 0 EW HW 0 0).2 1) := by
  have h := C1_leapfrog_step pW sq0 0 EW HW 0 0
  exact ⟨by decide,
    by simpa using h.1 1 (by decide) (by decide),
    by simpa using h.2.2.1 0 (by decide)⟩

/-- C4: the permittivity used by the stepper is exactly
`eps[k] = eps0 * (1 + delta_n * sin(2*pi*(k + Omega*t)/N))` for every
`k < N`; it is a pure function of `(N, delta_n, Omega, t)` alone: any
parameter record agreeing on `N` and `delta_n` yields the same value
(no retained state), and `fdtd_step` recomputes `epsArr` from its own
`t` argument on every call. -/
theorem C4_eps_formula (p : Params α) (sF : α → α) (piC Omega : α)
    (t k : Nat) (hk : k < p.N) (q : Params α) (hN : q.N = p.N)
    (hd : q.delta_n = p.delta_n) :
    epsArr p sF piC Omega t k =
      eps0 * (1 + p.delta_n *
        sF (2 * piC * ((k : α) + Omega * (t : α)) / (p.N : α))) ∧
    epsArr q sF piC Omega t k = epsArr p sF piC Omega t k := by
  exact ⟨rfl, by simp [epsArr, phase, hN, hd]⟩

/-- A parameter record agreeing with `pW` on `N` and `delta_n` only,
used by the C4 witness. -/
def qW : Params ℚ :=
  ⟨3, 7, 5, 0, 2, 4, 3, 9, 2, 6, 2, [ 1 ]⟩

/-- Witness for C4 at a concrete configuration: index 2 of the 3-cell
ring, compared against a record differing in every field except `N` and
`delta_n`. -/
theorem C4_eps_formula_witness :
    (2 < pW.N ∧ qW.N = pW.N ∧ qW.delta_n = pW.delta_n) ∧
    epsArr pW sq0 0 0 0 2 =
      eps0 * (1 + pW.delta_n *
        sq0 (2 * 0 * ((2 : ℚ) + 0 * (0 : ℚ)) / (pW.N : ℚ))) ∧
    epsArr qW sq0 0 0 0 2 = epsArr pW sq0 0 0 0 2 := by
  have h := C4_eps_formula pW sq0 0 0 0 2 (by decide) qW (by decide) (by decide)
  exact ⟨by decide, by simpa using h.1, h.2⟩

/-! Lemmas about the detection loop. -/

theorem trial_step_frozen (p : Params α) (sF eF : α → α) (piC Omega : α)
    (t : Nat) (s : TState α) (hs : s.arrival.isSome) :
    trial_step p sF eF piC Omega t s = s := by
  unfold trial_step
  rw [if_pos hs]

theorem trial_step_cases (p : Params α) (sF eF : α → α) (piC Omega : α)
    (t : Nat) (s : TState α) (hs : s.arrival = none) :
    (p.detect_thr < (stepFields p sF eF piC Omega t s).1 p.pulse_pos ∧
      (trial_step p sF eF piC Omega t s).laps = s.laps + 1 ∧
      ((p.circulations ≤ s.laps + 1 ∧
          (trial_step p sF eF piC Omega t s).arrival = some t) ∨
       (¬ p.circulations ≤ s.laps + 1 ∧
          (trial_step p sF eF piC Omega t s).arrival = none))) ∨
    (¬ p.detect_thr < (stepFields p sF eF piC Omega t s).1 p.pulse_pos ∧
      (trial_step p sF eF piC Omega t s).laps = s.laps ∧
      (trial_step p sF eF piC Omega t s).arrival = none) := by
  unfold trial_step
  rw [if_neg (by simp [hs])]
  split_ifs with h1 h2 <;> simp [*]

theorem trialRun_succ (p : Params α) (sF eF : α → α) (piC Omega : α)
    (n : Nat) :
    trialRun p sF eF piC Omega (n + 1) =
      trial_step p sF eF piC Omega n (trialRun p sF eF piC Omega n) := rfl

theorem trialRun_freeze (p : Params α) (sF eF : α → α) (piC Omega : α)
    {n : Nat} (hn : (trialRun p sF eF piC Omega n).arrival.isSome)
    {m : Nat} (hm : n ≤ m) :
    trialRun p sF eF piC Omega m = trialRun p sF eF piC Omega n := by
  induction m with
  | zero =>
    have := Nat.le_zero.mp hm
    subst this
    rfl
  | succ m ih =>
    rcases Nat.lt_or_ge m n with h | h
    · have : n = m + 1 := by omega
      subst this
      rfl
    · have e := ih h
      rw [trialRun_succ, e, trial_step_frozen p sF eF piC Omega m _ hn]

theorem trialRun_arrival_origin (p : Params α) (sF eF : α → α)
    (piC Omega : α) :
    ∀ n t, (trialRun p sF eF piC Omega n).arrival = some t →
      t < n ∧ (trialRun p sF eF piC Omega (t + 1)).arrival = some t := by
  intro n
  induction n with
  | zero => intro t h; simp [trialRun] at h
  | succ n ih =>
    intro t h
    by_cases hs : (trialRun p sF eF piC Omega n).arrival.isSome
    · rw [trialRun_succ, trial_step_frozen p sF eF piC Omega n _ hs] at h
      obtain ⟨h1, h2⟩ := ih t h
      exact ⟨Nat.lt_succ_of_lt h1, h2⟩
    · have hnone : (trialRun p sF eF piC Omega n).arrival = none :=
        Option.not_isSome_iff_eq_none.mp hs
      rcases trial_step_cases p sF eF piC Omega n _ hnone with
        ⟨_, _, ⟨_, ha⟩ | ⟨_, ha⟩⟩ | ⟨_, _, ha⟩
      · rw [trialRun_succ] at h
        rw [ha] at h
        have : t = n := (Option.some.inj h).symm
        subst this
        exact ⟨Nat.lt_succ_self t, by rw [trialRun_succ, ha]⟩
      · rw [trialRun_succ, ha] at h; exact absurd h (by simp)
      · rw [trialRun_succ, ha] at h; exact absurd h (by simp)

theorem trialRun_laps_lt (p : Params α) (sF eF : α → α) (piC Omega : α)
    (hcirc : 1 ≤ p.circulations) :
    ∀ n, (trialRun p sF eF piC Omega n).arrival = none →
      (trialRun p sF eF piC Omega n).laps < p.circulations := by
  intro n
  induction n with
  | zero => intro _; simpa [trialRun] using hcirc
  | succ n ih =>
    intro h
    have hs : (trialRun p sF eF piC Omega n).arrival = none := by
      by_contra hne
      have hsome : (trialRun p sF eF piC Omega n).arrival.isSome :=
        Option.ne_none_iff_isSome.mp hne
      rw [trialRun_succ, trial_step_frozen p sF eF piC Omega n _ hsome] at h
      exact hne h
    rcases trial_step_cases p sF eF piC Omega n _ hs with
      ⟨_, hl, ⟨_, ha⟩ | ⟨hc, _⟩⟩ | ⟨_, hl, _⟩
    · rw [trialRun_succ] at h
      rw [ha] at h
      exact absurd h (by simp)
    · rw [trialRun_succ, hl]
      omega
    · rw [trialRun_succ, hl]
      exact ih hs

theorem trialRun_none_before_arrival (p : Params α) (sF eF : α → α)
    (piC Omega : α) (t : Nat)
    (h : (trialRun p sF eF piC Omega (t + 1)).arrival = some t) :
    (trialRun p sF eF piC Omega t).arrival = none := by
  by_contra hne
  have hsome : (trialRun p sF eF piC Omega t).arrival.isSome :=
    Option.ne_none_iff_isSome.mp hne
  rw [trialRun_succ, trial_step_frozen p sF eF piC Omega t _ hsome] at h
  have := (trialRun_arrival_origin p sF eF piC Omega t t h).1
  omega

/-! A uniform field (constant `E`, zero `H`) is a fixed point of the
stepper; this lets concrete trial states be computed symbolically. -/

theorem fdtd_step_const (p : Params α) (sF : α → α) (piC Omega : α)
    (t : Nat) (c : α) :
    fdtd_step p sF piC (fun _ => c) (fun _ => 0) Omega t =
      (fun _ => c, fun _ => 0) := by
  have hH : (fdtd_step p sF piC (fun _ => c) (fun _ => 0) Omega t).2 =
      fun _ => (0 : α) := by
    funext i
    rw [fdtd_step_H]
    split_ifs <;> simp
  have hE : (fdtd_step p sF piC (fun _ => c) (fun _ => 0) Omega t).1 =
      fun _ => c := by
    funext i
    rw [fdtd_step_E, hH]
    split_ifs <;> simp
  exact Prod.ext hE hH

theorem injectE_zero (p : Params α) (eF : α → α) (E : Nat → α) (t : Nat)
    (h : p.inj_dur = 0) : injectE p eF E t = E := by
  unfold injectE
  rw [if_neg (by omega)]

theorem trial_step_const (p : Params α) (sF eF : α → α) (piC Omega : α)
    (t : Nat) (c : α) (laps : Nat) (hinj : p.inj_dur = 0)
    (hthr : p.detect_thr < c) :
    trial_step p sF eF piC Omega t ⟨fun _ => c, fun _ => 0, laps, none⟩ =
      (if p.circulations ≤ laps + 1 then
        ⟨fun _ => c, fun _ => 0, laps + 1, some t⟩
      else ⟨fun _ => c, fun _ => 0, laps + 1, none⟩) := by
  have hsf : stepFields p sF eF piC Omega t
      ⟨fun _ => c, fun _ => 0, laps, none⟩ = (fun _ => c, fun _ => 0) := by
    show fdtd_step p sF piC (injectE p eF (fun _ => c) t) (fun _ => 0)
      Omega t = _
    rw [injectE_zero p eF _ t hinj, fdtd_step_const]
  unfold trial_step
  rw [hsf]
  show (if (false : Bool) = true then _ else _) = _
  rw [if_neg (by simp), if_pos (show (fun _ => c, fun _ => (0:α)).1 p.pulse_pos > p.detect_thr from hthr)]

theorem trialRun_const_phase1 (p : Params α) (sF eF : α → α)
    (piC Omega : α) (c : α) (hinj : p.inj_dur = 0)
    (hpulse : gaussian_pulse p eF = fun _ => c)
    (hthr : p.detect_thr < c) :
    ∀ n, n < p.circulations →
      trialRun p sF eF piC Omega n = ⟨fun _ => c, fun _ => 0, n, none⟩ := by
  intro n
  induction n with
  | zero =>
    intro _
    show TState.mk (gaussian_pulse p eF) (fun _ => 0) 0 none = _
    rw [hpulse]
  | succ n ih =>
    intro h
    rw [trialRun_succ, ih (by omega),
      trial_step_const p sF eF piC Omega n c n hinj hthr, if_neg (by omega)]

theorem trialRun_const_arrival (p : Params α) (sF eF : α → α)
    (piC Omega : α) (c : α) (hinj : p.inj_dur = 0)
    (hpulse : gaussian_pulse p eF = fun _ => c)
    (hthr : p.detect_thr < c) (hcirc : 1 ≤ p.circulations) :
    trialRun p sF eF piC Omega p.circulations =
      ⟨fun _ => c, fun _ => 0, p.circulations, some (p.circulations - 1)⟩ := by
  rcases hc : p.circulations with _ | m
  · omega
  · have hm := trialRun_const_phase1 p sF eF piC Omega c hinj hpulse hthr m
      (by omega)
    rw [trialRun_succ, hm,
      trial_step_const p sF eF piC Omega m c m hinj hthr, if_pos (by omega)]
    simp

theorem run_one_omega_const (p : Params α) (sF eF : α → α)
    (piC Omega : α) (c : α) (hinj : p.inj_dur = 0)
    (hpulse : gaussian_pulse p eF = fun _ => c)
    (hthr : p.detect_thr < c) (hcirc : 1 ≤ p.circulations)
    (hsim : p.circulations ≤ p.sim_steps) :
    run_one_omega p sF eF piC Omega =
      some (((p.circulations - 1 : Nat) : α) * p.dt) := by
  have ha := trialRun_const_arrival p sF eF piC Omega c hinj hpulse hthr hcirc
  have hfr := trialRun_freeze p sF eF piC Omega
    (n := p.circulations) (by rw [ha]; rfl) (m := p.sim_steps) hsim
  unfold run_one_omega
  rw [hfr, ha]

/-- C3: `run_one_omega` returns `arrival_step * dt` where `arrival_step`
is the step at which the lap counter first reaches `target_circulations`
(the counter is below the target before that step and at or above it
after it), it performs no further FDTD steps after that step (the loop
state is unchanged from step `arrival_step + 1` on), and it returns the
NaN sentinel (`none`) exactly when all `sim_steps` steps are exhausted
without the counter reaching the target. -/
theorem C3_arrival_semantics (p : Params α) (sF eF : α → α)
    (piC Omega : α) (hcirc : 1 ≤ p.circulations) :
    (∀ r, run_one_omega p sF eF piC Omega = some r ↔
      ∃ t, t < p.sim_steps ∧
        (trialRun p sF eF piC Omega (t + 1)).arrival = some t ∧
        r = (t : α) * p.dt) ∧
    (∀ t, (trialRun p sF eF piC Omega (t + 1)).arrival = some t →
      p.circulations ≤ (trialRun p sF eF piC Omega (t + 1)).laps ∧
      (trialRun p sF eF piC Omega t).laps < p.circulations ∧
      ∀ m, t + 1 ≤ m →
        trialRun p sF eF piC Omega m = trialRun p sF eF piC Omega (t + 1)) ∧
    (run_one_omega p sF eF piC Omega = none ↔
      (trialRun p sF eF piC Omega p.sim_steps).arrival = none) := by
  refine ⟨fun r => ⟨fun h => ?_, fun h => ?_⟩, fun t h => ?_, ?_⟩
  · unfold run_one_omega at h
    rcases ha : (trialRun p sF eF piC Omega p.sim_steps).arrival with _ | s
    · rw [ha] at h; exact absurd h (by simp)
    · rw [ha] at h
      obtain ⟨h1, h2⟩ := trialRun_arrival_origin p sF eF piC Omega p.sim_steps s ha
      exact ⟨s, h1, h2, (Option.some.inj h).symm⟩
  · obtain ⟨t, h1, h2, h3⟩ := h
    have hfr := trialRun_freeze p sF eF piC Omega
      (n := t + 1) (by simp [h2]) (m := p.sim_steps) h1
    unfold run_one_omega
    rw [hfr, h2, h3]
  · have hnone := trialRun_none_before_arrival p sF eF piC Omega t h
    have hlt := trialRun_laps_lt p sF eF piC Omega hcirc t hnone
    rcases trial_step_cases p sF eF piC Omega t _ hnone with
      ⟨_, hl, ⟨hc, _⟩ | ⟨_, ha⟩⟩ | ⟨_, _, ha⟩
    · refine ⟨?_, hlt, fun m hm => trialRun_freeze p sF eF piC Omega (by simp [h]) hm⟩
      rw [trialRun_succ, hl]
      exact hc
    · rw [trialRun_succ, ha] at h; exact absurd h (by simp)
    · rw [trialRun_succ, ha] at h; exact absurd h (by simp)
  · unfold run_one_omega
    rcases ha : (trialRun p sF eF piC Omega p.sim_steps).arrival with _ | s <;> simp

/-- With the witness parameters `pW`, the trial detects at step 0. -/
theorem pW_state1 :
    trialRun pW sq0 eq1 0 0 1 = ⟨fun _ => 1, fun _ => 0, 1, some 0⟩ := by
  have h := trialRun_const_arrival pW sq0 eq1 0 0 1 rfl
    (funext fun _ => rfl) (by norm_num [pW]) (by norm_num [pW])
  simpa using h

/-- Witness for C3 at the concrete parameters `pW` (everything uniform,
detection threshold 0, one target lap): the trial detects at step 0,
returns `0 * dt`, and the state is frozen from step 1 on. -/
theorem C3_arrival_semantics_witness :
    1 ≤ pW.circulations ∧
    run_one_omega pW sq0 eq1 0 0 = some ((0 : ℚ) * pW.dt) ∧
    trialRun pW sq0 eq1 0 0 2 = trialRun pW sq0 eq1 0 0 1 := by
  have h := C3_arrival_semantics pW sq0 eq1 0 0 (by decide)
  have ha : (trialRun pW sq0 eq1 0 0 (0 + 1)).arrival = some 0 := by
    rw [show (0 : Nat) + 1 = 1 from rfl, pW_state1]
  refine ⟨by decide, ?_, ?_⟩
  · exact (h.1 ((0 : ℚ) * pW.dt)).mpr ⟨0, by decide, ha, rfl⟩
  · exact (h.2.1 0 ha).2.2 2 (by decide)

/-- The field value the detector inspects at step `t`: `E[pulse_pos]`
right after the FDTD step of iteration `t`. -/
def observedE (p : Params α) (sF eF : α → α) (piC Omega : α) (t : Nat) : α :=
  (stepFields p sF eF piC Omega t (trialRun p sF eF piC Omega t)).1 p.pulse_pos

/-- The lap counter was incremented by the loop iteration of step `t`. -/
def lapCounted (p : Params α) (sF eF : α → α) (piC Omega : α)
    (t : Nat) : Prop :=
  (trialRun p sF eF piC Omega (t + 1)).laps =
    (trialRun p sF eF piC Omega t).laps + 1

/-- C2 as stated: between any two counted laps there is a step at which
the observed field has dropped back to or below the detection threshold
(no re-triggering while the signal stays above threshold). -/
def cooldown_claim (p : Params α) (sF eF : α → α) (piC Omega : α) : Prop :=
  ∀ t1 t2 : Nat, t1 < t2 →
    lapCounted p sF eF piC Omega t1 → lapCounted p sF eF piC Omega t2 →
    ∃ u, t1 < u ∧ u < t2 ∧
      (trialRun p sF eF piC Omega (u + 1)).E p.pulse_pos ≤ p.detect_thr

/-- Parameters refuting the cooldown claim: a 2-cell ring with a uniform
field (amplitude 1 everywhere), threshold 0 and two target laps, so the
signal sits above threshold at every step and laps are counted at steps
0 and 1 with no intervening drop below the threshold. -/
def pC2 : Params ℚ :=
  ⟨2, 1, 1, 0, 0, 1, 0, 0, 2, 3, 1, [ 0 ]⟩

/-- Counterexample to C2: in the trial `run_one_omega` performs for
`pC2`, laps are counted at the consecutive steps 0 and 1 although the
observed field never drops back below the detection threshold in
between, so the detector does re-trigger on the same crossing. -/
theorem C2_cooldown_cex : ¬ cooldown_claim pC2 sq0 eq1 0 0 := by
  intro h
  have hs1 : trialRun pC2 sq0 eq1 0 0 1 = ⟨fun _ => 1, fun _ => 0, 1, none⟩ := by
    have := trialRun_const_phase1 pC2 sq0 eq1 0 0 1 rfl
      (funext fun _ => rfl) (by norm_num [pC2]) 1 (by decide)
    simpa using this
  have hs2 : trialRun pC2 sq0 eq1 0 0 2 =
      ⟨fun _ => 1, fun _ => 0, 2, some 1⟩ := by
    have := trialRun_const_arrival pC2 sq0 eq1 0 0 1 rfl
      (funext fun _ => rfl) (by norm_num [pC2]) (by decide)
    simpa using this
  have hc0 : lapCounted pC2 sq0 eq1 0 0 0 := by
    show (trialRun pC2 sq0 eq1 0 0 1).laps = (trialRun pC2 sq0 eq1 0 0 0).laps + 1
    rw [hs1]
    rfl
  have hc1 : lapCounted pC2 sq0 eq1 0 0 1 := by
    show (trialRun pC2 sq0 eq1 0 0 2).laps = (trialRun pC2 sq0 eq1 0 0 1).laps + 1
    rw [hs1, hs2]
  obtain ⟨u, hu1, hu2, _⟩ := h 0 1 (by omega) hc0 hc1
  omega

/-- C2 amended: while `arrival_step` is unset, the detector counts one
lap at every step at which the post-step `E[pulse_pos]` exceeds
`detection_threshold`, with no cooldown — consecutive above-threshold
steps each count a lap. -/
theorem C2_amended_lap_counting (p : Params α) (sF eF : α → α)
    (piC Omega : α) (t : Nat)
    (h : (trialRun p sF eF piC Omega t).arrival = none) :
    (trialRun p sF eF piC Omega (t + 1)).laps =
      if p.detect_thr < observedE p sF eF piC Omega t then
        (trialRun p sF eF piC Omega t).laps + 1
      else (trialRun p sF eF piC Omega t).laps := by
  rcases trial_step_cases p sF eF piC Omega t _ h with
    ⟨hd, hl, _⟩ | ⟨hd, hl, _⟩
  · rw [trialRun_succ, hl, if_pos (by exact hd)]
  · rw [trialRun_succ, hl, if_neg (by exact hd)]

/-- Witness for the amended C2 at the concrete parameters `pC2`, step 0:
the observed field exceeds the threshold, so the counter steps from 0 to
1. -/
theorem C2_amended_lap_counting_witness :
    (trialRun pC2 sq0 eq1 0 0 0).arrival = none ∧
    (trialRun pC2 sq0 eq1 0 0 1).laps =
      (if pC2.detect_thr < observedE pC2 sq0 eq1 0 0 0 then
        (trialRun pC2 sq0 eq1 0 0 0).laps + 1
      else (trialRun pC2 sq0 eq1 0 0 0).laps) :=
  ⟨by decide, C2_amended_lap_counting pC2 sq0 eq1 0 0 0 (by decide)⟩

/-! Variants of the trial and animation loops with the source-injection
line deleted, used to express that the injection branch is dead code
when `injection_duration = 0`. -/

/-- `stepFields` with the injection line removed. -/
def stepFields_noinj (p : Params α) (sF : α → α) (piC Omega : α) (t : Nat)
    (s : TState α) : (Nat → α) × (Nat → α) :=
  fdtd_step p sF piC s.E s.H Omega t

/-- The loop body of `run_one_omega` with the injection line removed. -/
def trial_step_noinj (p : Params α) (sF : α → α) (piC Omega : α) (t : Nat)
    (s : TState α) : TState α :=
  if s.arrival.isSome then s
  else if (stepFields_noinj p sF piC Omega t s).1 p.pulse_pos >
      p.detect_thr then
    if p.circulations ≤ s.laps + 1 then
      ⟨(stepFields_noinj p sF piC Omega t s).1,
        (stepFields_noinj p sF piC Omega t s).2, s.laps + 1, some t⟩
    else
      ⟨(stepFields_noinj p sF piC Omega t s).1,
        (stepFields_noinj p sF piC Omega t s).2, s.laps + 1, none⟩
  else
    ⟨(stepFields_noinj p sF piC Omega t s).1,
      (stepFields_noinj p sF piC Omega t s).2, s.laps, none⟩

/-- The trial loop with the injection line removed (the seeded initial
Gaussian is kept). -/
def trialRun_noinj (p : Params α) (sF eF : α → α) (piC Omega : α) :
    Nat → TState α
  | 0 => ⟨gaussian_pulse p eF, fun _ => 0, 0, none⟩
  | n + 1 => trial_step_noinj p sF piC Omega n (trialRun_noinj p sF eF piC Omega n)

/-- `run_one_omega` with the injection line removed. -/
def run_one_omega_noinj (p : Params α) (sF eF : α → α) (piC Omega : α) :
    Option α :=
  match (trialRun_noinj p sF eF piC Omega p.sim_steps).arrival with
  | some s => some ((s : α) * p.dt)
  | none => none

/-- The `make_animation` loop body with the injection line removed. -/
def anim_step_noinj (p : Params α) (sF : α → α) (piC Omega : α) (t : Nat)
    (s : AState α) : AState α :=
  let EH := fdtd_step p sF piC s.E s.H Omega t
  ⟨EH.1, EH.2, if t % record_every = 0 then s.frames ++ [ EH.1 ] else s.frames⟩

/-- The `make_animation` loop with the injection line removed. -/
def animRun_noinj (p : Params α) (sF eF : α → α) (piC Omega : α) :
    Nat → AState α
  | 0 => ⟨gaussian_pulse p eF, fun _ => 0, []⟩
  | n + 1 => anim_step_noinj p sF piC Omega n (animRun_noinj p sF eF piC Omega n)

/-- The frames `make_animation` would render with the injection line
removed. -/
def make_animation_frames_noinj (p : Params α) (sF eF : α → α)
    (piC Omega : α) : List (Nat → α) :=
  (animRun_noinj p sF eF piC Omega p.sim_steps).frames

/-- C9: for `injection_duration = 0` the guarded injection is the
identity on the field (the branch `t < injection_duration` never fires,
so the source expression with its division by `injection_duration / 4`
is never evaluated), and both `run_one_omega` and the `make_animation`
frame loop coincide with their injection-free variants: the field
evolves from the seeded initial Gaussian alone. -/
theorem C9_injection_dead (p : Params α) (sF eF : α → α) (piC Omega : α)
    (hinj : p.inj_dur = 0) :
    (∀ (E : Nat → α) (t : Nat), injectE p eF E t = E) ∧
    run_one_omega p sF eF piC Omega = run_one_omega_noinj p sF eF piC Omega ∧
    make_animation_frames p sF eF piC Omega =
      make_animation_frames_noinj p sF eF piC Omega := by
  have hid : ∀ (E : Nat → α) (t : Nat), injectE p eF E t = E :=
    fun E t => injectE_zero p eF E t hinj
  have hsf : ∀ t s, stepFields p sF eF piC Omega t s =
      stepFields_noinj p sF piC Omega t s := by
    intro t s
    unfold stepFields stepFields_noinj
    rw [hid]
  have hts : ∀ t s, trial_step p sF eF piC Omega t s =
      trial_step_noinj p sF piC Omega t s := by
    intro t s
    unfold trial_step trial_step_noinj
    rw [hsf]
  have htr : ∀ n, trialRun p sF eF piC Omega n =
      trialRun_noinj p sF eF piC Omega n := by
    intro n
    induction n with
    | zero => rfl
    | succ n ih =>
      show trial_step p sF eF piC Omega n (trialRun p sF eF piC Omega n) =
        trial_step_noinj p sF piC Omega n (trialRun_noinj p sF eF piC Omega n)
      rw [ih, hts]
  have has : ∀ t s, anim_step p sF eF piC Omega t s =
      anim_step_noinj p sF piC Omega t s := by
    intro t s
    unfold anim_step anim_step_noinj
    rw [hid]
  have har : ∀ n, animRun p sF eF piC Omega n =
      animRun_noinj p sF eF piC Omega n := by
    intro n
    induction n with
    | zero => rfl
    | succ n ih =>
      show anim_step p sF eF piC Omega n (animRun p sF eF piC Omega n) =
        anim_step_noinj p sF piC Omega n (animRun_noinj p sF eF piC Omega n)
      rw [ih, has]
  refine ⟨hid, ?_, ?_⟩
  · unfold run_one_omega run_one_omega_noinj
    rw [htr]
  · unfold make_animation_frames make_animation_frames_noinj
    rw [har]

/-- Witness for C9 at the concrete parameters `pW`, whose
`injection_duration` is 0. -/
theorem C9_injection_dead_witness :
    pW.inj_dur = 0 ∧
    run_one_omega pW sq0 eq1 0 0 = run_one_omega_noinj pW sq0 eq1 0 0 ∧
    make_animation_frames pW sq0 eq1 0 0 =
      make_animation_frames_noinj pW sq0 eq1 0 0 := by
  have h := C9_injection_dead pW sq0 eq1 0 0 rfl
  exact ⟨rfl, h.2.1, h.2.2⟩

/-! Small list lemmas for the sweep. -/

theorem filterMap_const_none {β : Type} (l : List β) :
    l.filterMap (fun _ => (none : Option α)) = [] := by
  induction l with
  | nil => rfl
  | cons a l ih => simp [List.filterMap_cons, ih]

theorem filterMap_const_some {β : Type} (l : List β) (v : α) :
    l.filterMap (fun _ => some v) = l.map (fun _ => v) := by
  induction l with
  | nil => rfl
  | cons a l ih => simp [List.filterMap_cons, ih]

/-- The sweep preserves the rotation-rate input order. -/
theorem timing_table_fst (p : Params α) (sF eF : α → α) (piC : α) :
    (compute_timing_table p sF eF piC).map Prod.fst = p.omega_vals := by
  simp [compute_timing_table, List.map_map, Function.comp_def, apply_ite]

/-- C5: `compute_timing_table` returns exactly one pair per configured
rotation rate, in input order (its first projections are exactly
`omega_vals`), and the entry at every index pairs that rate with the
arithmetic mean (`np_mean`, sum over length) of the detected arrival
times among the `avg_runs` trials (`detectedTimes`, the NaN results
dropped), or the NaN sentinel when every trial was undetected. -/
theorem C5_timing_table (p : Params α) (sF eF : α → α) (piC : α) :
    ((compute_timing_table p sF eF piC).map Prod.fst = p.omega_vals) ∧
    (compute_timing_table p sF eF piC).length = p.omega_vals.length ∧
    ∀ i : Nat, (compute_timing_table p sF eF piC)[i]? =
      (p.omega_vals[i]?).map (fun omega =>
        (omega,
          if (detectedTimes p sF eF piC omega).isEmpty then none
          else some (np_mean (detectedTimes p sF eF piC omega)))) := by
  refine ⟨?_, ?_, fun i => ?_⟩
  · exact timing_table_fst p sF eF piC
  · simp [compute_timing_table]
  · rcases h : p.omega_vals[i]? with _ | v <;>
      simp [compute_timing_table, List.getElem?_map, h, apply_ite]

/-- C8: the trial is deterministic, so within one sweep every one of the
`avg_runs` trials for a rate returns the identical arrival time and the
reported mean collapses to the single trial result: the whole table is
exactly `omega_vals` paired with `run_one_omega` at each rate. -/
theorem C8_deterministic_sweep (p : Params α) (sF eF : α → α) (piC : α)
    (h : 1 ≤ p.avg_runs) :
    compute_timing_table p sF eF piC =
      p.omega_vals.map (fun omega => (omega, run_one_omega p sF eF piC omega)) := by
  unfold compute_timing_table
  have hfun : ∀ omega : α,
      (if (detectedTimes p sF eF piC omega).isEmpty then ((omega, none) : α × Option α)
       else (omega, some (np_mean (detectedTimes p sF eF piC omega)))) =
      (omega, run_one_omega p sF eF piC omega) := by
    intro omega
    rcases hr : run_one_omega p sF eF piC omega with _ | v
    · have hd : detectedTimes p sF eF piC omega = [] := by
        unfold detectedTimes
        rw [show (fun _ : Nat => run_one_omega p sF eF piC omega) =
          (fun _ : Nat => (none : Option α)) from funext fun _ => hr]
        exact filterMap_const_none _
      rw [if_pos (by simp [hd])]
    · have hd : detectedTimes p sF eF piC omega =
          (List.range p.avg_runs).map (fun _ => v) := by
        unfold detectedTimes
        rw [show (fun _ : Nat => run_one_omega p sF eF piC omega) =
          (fun _ : Nat => some v) from funext fun _ => hr]
        exact filterMap_const_some _ _
      have hlen : (detectedTimes p sF eF piC omega).length = p.avg_runs := by
        simp [hd]
      have hne : ¬ (detectedTimes p sF eF piC omega).isEmpty := by
        rw [List.isEmpty_iff_length_eq_zero, hlen]
        omega
      rw [if_neg hne]
      have hmean : np_mean (detectedTimes p sF eF piC omega) = v := by
        unfold np_mean
        rw [hd]
        simp only [List.map_const', List.sum_replicate, List.length_replicate,
          List.length_range, nsmul_eq_mul]
        exact mul_div_cancel_left₀ v (Nat.cast_ne_zero.mpr (by omega))
      rw [hmean]
  exact List.map_congr_left fun omega _ => hfun omega

/-- Witness for C8 at the concrete parameters `pW` (one averaging run). -/
theorem C8_deterministic_sweep_witness :
    1 ≤ pW.avg_runs ∧
    compute_timing_table pW sq0 eq1 0 =
      pW.omega_vals.map (fun omega => (omega, run_one_omega pW sq0 eq1 0 omega)) :=
  ⟨by decide, C8_deterministic_sweep pW sq0 eq1 0 (by decide)⟩

/-! Claim C6: the end-to-end scenario. -/

/-- The scenario configuration of the end-to-end claim: ring_size 400,
dt 0.5, perturbation_amplitude 0.1, pulse_position 100, pulse_sigma 3,
injection_duration 0, target_circulations 1, max_steps 500,
rotation_rates [0.000, 0.005], averaging_runs 1.  The scenario fixes
neither dx nor detection_threshold, so they stay parameters. -/
def pC6 (dxv thr : ℚ) : Params ℚ :=
  ⟨400, dxv, 1 / 2, 1 / 10, 100, 3, 0, thr, 1, 500, 1, [ 0, 1 / 200 ]⟩

/-- If a trial returns an arrival time, it is `s * dt` for some step
index `s` below `sim_steps`. -/
theorem run_one_omega_eq (p : Params α) (sF eF : α → α) (piC Omega r : α)
    (h : run_one_omega p sF eF piC Omega = some r) :
    ∃ s : Nat, s < p.sim_steps ∧ r = (s : α) * p.dt := by
  unfold run_one_omega at h
  rcases ha : (trialRun p sF eF piC Omega p.sim_steps).arrival with _ | s
  · rw [ha] at h; exact absurd h (by simp)
  · rw [ha] at h
    exact ⟨s, (trialRun_arrival_origin p sF eF piC Omega _ s ha).1,
      (Option.some.inj h).symm⟩

/-- The arrival-time value asserted by the end-to-end scenario: for the
Omega = 0 row, a mean arrival time of 400.00 dt-units, i.e. a trial
returning 400; quantified over the unspecified dx and threshold and over
every model of sin, exp and pi, so it covers the real ones. -/
def endtoend_claim : Prop :=
  ∃ (dxv thr : ℚ) (sF eF : ℚ → ℚ) (piC : ℚ),
    run_one_omega (pC6 dxv thr) sF eF piC 0 = some 400

/-- Counterexample to C6: with max_steps = 500 and dt = 0.5, any
returned arrival time equals `s * 0.5` with `s < 500`, hence is at most
249.5; the reference value 400.00 (and a fortiori the 384-398 range) is
unattainable for every dx, threshold, sin, exp and pi. -/
theorem C6_endtoend_cex : ¬ endtoend_claim := by
  rintro ⟨dxv, thr, sF, eF, piC, h⟩
  obtain ⟨s, hs, hr⟩ := run_one_omega_eq (pC6 dxv thr) sF eF piC 0 400 h
  have hs5 : s < 500 := hs
  have hcast : (s : ℚ) ≤ 499 := by exact_mod_cast Nat.lt_succ_iff.mp hs5
  have hdt : (pC6 dxv thr).dt = 1 / 2 := rfl
  rw [hdt] at hr
  linarith

/-- A sum of list elements all below `B` is below `length * B`. -/
theorem sum_lt_length_mul (l : List α) (B : α) (h : ∀ x ∈ l, x < B)
    (hne : l ≠ []) : l.sum < (l.length : α) * B := by
  induction l with
  | nil => exact absurd rfl hne
  | cons a t ih =>
    rcases eq_or_ne t [] with ht | ht
    · subst ht
      simpa using h a (by simp)
    · have h1 : a < B := h a (by simp)
      have h2 := ih (fun x hx => h x (by simp [hx])) ht
      simp only [List.sum_cons, List.length_cons]
      push_cast
      linarith

/-- The mean of a nonempty list of values all below `B` is below `B`. -/
theorem np_mean_lt (l : List α) (B : α) (hne : l ≠ [])
    (h : ∀ x ∈ l, x < B) : np_mean l < B := by
  have hlen : (0 : α) < (l.length : α) := by
    have : 0 < l.length := List.length_pos.mpr hne
    exact_mod_cast this
  unfold np_mean
  rw [div_lt_iff₀ hlen, mul_comm]
  exact sum_lt_length_mul l B h hne

/-- C6 amended: for the scenario configuration the sweep does produce
exactly two rows, in the order [0.000, 0.005]; but with max_steps = 500
and dt = 0.5 every trial either returns the NaN sentinel or an arrival
time strictly below 250 = max_steps * dt, and so does every reported
mean — the reference values 400.00 and approximately 384-398 are
unattainable at this step budget. -/
theorem C6_endtoend_amended (dxv thr : ℚ) (sF eF : ℚ → ℚ) (piC : ℚ) :
    ((compute_timing_table (pC6 dxv thr) sF eF piC).map Prod.fst =
      [ 0, 1 / 200 ]) ∧
    (∀ Omega r : ℚ,
      run_one_omega (pC6 dxv thr) sF eF piC Omega = some r → r < 250) ∧
    (∀ pr ∈ compute_timing_table (pC6 dxv thr) sF eF piC,
      ∀ v : ℚ, pr.2 = some v → v < 250) := by
  have hbound : ∀ Omega r : ℚ,
      run_one_omega (pC6 dxv thr) sF eF piC Omega = some r → r < 250 := by
    intro Omega r h
    obtain ⟨s, hs, hr⟩ := run_one_omega_eq (pC6 dxv thr) sF eF piC Omega r h
    have hs5 : s < 500 := hs
    have hcast : (s : ℚ) ≤ 499 := by exact_mod_cast Nat.lt_succ_iff.mp hs5
    have hdt : (pC6 dxv thr).dt = 1 / 2 := rfl
    rw [hdt] at hr
    rw [hr]
    linarith
  refine ⟨by rw [timing_table_fst]; rfl, hbound, ?_⟩
  intro pr hpr v hv
  unfold compute_timing_table at hpr
  rw [List.mem_map] at hpr
  obtain ⟨omega, _, hf⟩ := hpr
  by_cases he : (detectedTimes (pC6 dxv thr) sF eF piC omega).isEmpty
  · rw [if_pos he] at hf
    rw [← hf] at hv
    exact absurd hv (by simp)
  · rw [if_neg he] at hf
    rw [← hf] at hv
    have hvm : v = np_mean (detectedTimes (pC6 dxv thr) sF eF piC omega) :=
      (Option.some.inj hv).symm
    have hne : detectedTimes (pC6 dxv thr) sF eF piC omega ≠ [] := by
      intro hnil
      rw [hnil] at he
      exact he rfl
    have helts : ∀ x ∈ detectedTimes (pC6 dxv thr) sF eF piC omega,
        x < 250 := by
      intro x hx
      unfold detectedTimes at hx
      rw [List.mem_filterMap] at hx
      obtain ⟨_, _, hx⟩ := hx
      exact hbound omega x hx
    rw [hvm]
    exact np_mean_lt _ 250 hne helts

/-- Witness for the amended C6: with dx = 1, threshold -1 and the
constant models of sin and exp, the field is uniform at amplitude 1, the
trial detects its single target lap at step 0 and returns 0, which is
below the 250 bound. -/
theorem C6_endtoend_amended_witness :
    run_one_omega (pC6 1 (-1)) sq0 eq1 0 0 = some 0 ∧ (0 : ℚ) < 250 := by
  have h := C6_endtoend_amended 1 (-1) sq0 eq1 0
  have hrun : run_one_omega (pC6 1 (-1)) sq0 eq1 0 0 = some 0 := by
    have hc := run_one_omega_const (pC6 1 (-1)) sq0 eq1 0 0 1 rfl
      (funext fun _ => rfl) (by norm_num [pC6]) (by decide) (by decide)
    simpa [pC6] using hc
  exact ⟨hrun, h.2.1 0 0 hrun⟩

/-! Claim C7: the CSV delta and percentage columns. -/

/-- The C7 assertion that the percentage column is 0.00 in every row of
a table whose baseline is degenerate. -/
def csv_zero_claim (data : List (ℚ × Option ℚ)) : Prop :=
  ∀ r ∈ write_csv_rows data, r.2.2.2 = some 0

/-- Counterexample to C7: with an undetected (NaN) first-row value, the
guard `t0 != 0` is true for NaN, so every percentage (and delta) is NaN
rather than the claimed 0.00. -/
theorem C7_percent_cex :
    ¬ csv_zero_claim [ ((0 : ℚ), none), (1, some 5) ] := by
  intro h
  have hrows : write_csv_rows [ ((0 : ℚ), none), (1, some 5) ] =
      [ (0, none, none, none), (1, some 5, none, none) ] := rfl
  have hm : ((1 : ℚ), (some 5 : Option ℚ), (none : Option ℚ),
      (none : Option ℚ)) ∈ write_csv_rows [ ((0 : ℚ), none), (1, some 5) ] := by
    rw [hrows]
    simp
  exact absurd (h _ hm) (by simp)

/-- C7 amended: with `t0` the first row's value, every row with a
detected value `t` gets the percentage `100 * (t - t0) / t0` whenever
`t0` is detected and nonzero; the first row is 0.00/0.00 whenever `t0`
is detected; the zero-substitution applies exactly when `t0` is detected
and equal to zero (then every percentage is 0.00); but when `t0` is the
NaN sentinel, the `t0 != 0` guard holds for NaN and every delta and
percentage is NaN, not 0.00. -/
theorem C7_percent_delta (data : List (α × Option α)) (om0 : α)
    (t0 : Option α) (rest : List (α × Option α))
    (hdata : data = (om0, t0) :: rest) :
    (t0 = some 0 → ∀ r ∈ write_csv_rows data, r.2.2.2 = some 0) ∧
    (∀ v : α, t0 = some v → v ≠ 0 →
      ∀ r ∈ write_csv_rows data, ∀ tv : α, r.2.1 = some tv →
        r.2.2.2 = some (100 * (tv - v) / v)) ∧
    (∀ v : α, t0 = some v →
      (write_csv_rows data).head? = some (om0, t0, some 0, some 0)) ∧
    (t0 = none → ∀ r ∈ write_csv_rows data,
      r.2.2.1 = none ∧ r.2.2.2 = none) := by
  subst hdata
  refine ⟨fun h0 r hr => ?_, fun v hv hne r hr tv htv => ?_,
    fun v hv => ?_, fun h0 r hr => ?_⟩
  · subst h0
    unfold write_csv_rows at hr
    rw [List.mem_map] at hr
    obtain ⟨a, _, hf⟩ := hr
    rw [← hf]
    simp [nanNeZero]
  · subst hv
    unfold write_csv_rows at hr
    rw [List.mem_map] at hr
    obtain ⟨a, _, hf⟩ := hr
    rw [← hf] at htv ⊢
    show (if nanNeZero (some v) then _ else _) = _
    rw [if_pos (by simp [nanNeZero, hne])]
    have ha2 : a.2 = some tv := htv
    rw [ha2]
    simp [nanSub, nanMul, nanDiv]
  · subst hv
    unfold write_csv_rows
    simp only [List.map_cons, List.head?_cons]
    rcases eq_or_ne v 0 with h0 | h0
    · subst h0
      simp [nanSub, nanNeZero]
    · simp [nanSub, nanNeZero, nanMul, nanDiv, h0]
  · subst h0
    unfold write_csv_rows at hr
    rw [List.mem_map] at hr
    obtain ⟨a, _, hf⟩ := hr
    rw [← hf]
    rcases a.2 with _ | w <;> simp [nanSub, nanNeZero, nanMul, nanDiv]

/-- The concrete table for the C7 witness: baseline detected at 4, second
row detected at 6. -/
def dW7 : List (ℚ × Option ℚ) := [ (0, some 4), (1, some 6) ]

/-- Witness for the amended C7 on `dW7`: the first row carries 0.00/0.00
and the second row's percentage is `100 * (6 - 4) / 4`. -/
theorem C7_percent_delta_witness :
    (4 : ℚ) ≠ 0 ∧
    (write_csv_rows dW7).head? = some (0, some 4, some 0, some 0) ∧
    ((write_csv_rows dW7)[1]?).map (fun r => r.2.2.2) =
      some (some (100 * ((6 : ℚ) - 4) / 4)) := by
  have h := C7_percent_delta dW7 0 (some 4) [ (1, some 6) ] rfl
  refine ⟨by norm_num, h.2.2.1 4 rfl, ?_⟩
  have hrow : (write_csv_rows dW7)[1]? =
      some ((1 : ℚ), (some 6 : Option ℚ), nanSub (some 6) (some 4),
        if nanNeZero (some (4 : ℚ)) then
          nanDiv (nanMul (some 100) (nanSub (some 6) (some 4))) (some 4)
        else some 0) := rfl
  rw [hrow, Option.map_some']
  have hm : ((1 : ℚ), (some 6 : Option ℚ), nanSub (some 6) (some 4),
      if nanNeZero (some (4 : ℚ)) then
        nanDiv (nanMul (some 100) (nanSub (some 6) (some 4))) (some 4)
      else some 0) ∈ write_csv_rows dW7 := by
    rw [show write_csv_rows dW7 =
      [ ((0 : ℚ), (some 4 : Option ℚ), nanSub (some 4) (some 4),
          if nanNeZero (some (4 : ℚ)) then
            nanDiv (nanMul (some 100) (nanSub (some 4) (some 4))) (some 4)
          else some 0),
        (1, some 6, nanSub (some 6) (some 4),
          if nanNeZero (some (4 : ℚ)) then
            nanDiv (nanMul (some 100) (nanSub (some 6) (some 4))) (some 4)
          else some 0) ] from rfl]
    simp
  exact congrArg some (h.2.1 4 rfl (by norm_num) _ hm 6 rfl)

/-- C10: for an empty sweep, `write_csv` writes the header row and no
data rows; the baseline lookup `data[0][1]` sits behind the `if data:`
guard (modelled by the empty-list branch of `write_csv_rows`), so the
function is total on the empty list. -/
theorem C10_empty_sweep :
    write_csv_file ([] : List (ℚ × Option ℚ)) = (write_csv_header, []) := rfl

end Fdtd
